import Mathlib

/-!
Verification of the saved-query export/import tool (`query_tool.py`).

The tool exports saved-query records from a remote inventory service to local
JSON files and imports them back.  We shallowly embed the JSON data model and
the pure decision logic of `do_import` (file/directory accumulation, the
skip-or-create loop over candidates) and `do_export` (name-prefix and tag
filtering, the per-file safe-name derivation and collision handling).
Remote calls (`saved_query.get`, `saved_query._add`) and file writes are
external collaborators; their observable inputs/outputs appear as explicit
parameters and event lists.  `Option` models uncaught Python exceptions:
`none` is an exception escaping the modelled code, `some` normal execution.
-/

namespace QueryTool

/-- JSON values as Python's `json` module materialises them (dicts kept as
key/value lists in file order; numbers restricted to integers, floats do not
occur in the claims considered). -/
inductive Json where
  | null
  | bool (b : Bool)
  | num (n : Int)
  | str (s : String)
  | arr (elems : List Json)
  | obj (fields : List (String × Json))
  deriving Repr

mutual

/-- Structural equality of JSON values, the meaning of Python `==` on the
values the tool compares (names and tags; Python's numeric/bool cross-type
equalities such as `True == 1` do not arise for them). -/
def Json.beq : Json → Json → Bool
  | .null, .null => true
  | .bool a, .bool b => a == b
  | .num a, .num b => a == b
  | .str a, .str b => a == b
  | .arr as, .arr bs => Json.beqList as bs
  | .obj fs, .obj gs => Json.beqObj fs gs
  | _, _ => false

/-- Elementwise equality of JSON arrays. -/
def Json.beqList : List Json → List Json → Bool
  | [], [] => true
  | a :: as, b :: bs => Json.beq a b && Json.beqList as bs
  | _, _ => false

/-- Pairwise equality of JSON object field lists. -/
def Json.beqObj : List (String × Json) → List (String × Json) → Bool
  | [], [] => true
  | (k, v) :: fs, (l, w) :: gs => k == l && Json.beq v w && Json.beqObj fs gs
  | _, _ => false

end

instance : BEq Json := ⟨Json.beq⟩

/-- `==` on `Json` is `Json.beq`, definitionally. -/
theorem Json.beq_def (a b : Json) : (a == b) = Json.beq a b := rfl

/-- Comparing a JSON string with any value decides equality (enough of
lawfulness of `Json.beq` for the membership tests the tool performs, whose
probe values are strings). -/
theorem Json.beq_str_iff (s : String) (x : Json) :
    Json.beq (Json.str s) x = true ↔ x = Json.str s := by
  cases x with
  | str t =>
    show (s == t) = true ↔ Json.str t = Json.str s
    rw [beq_iff_eq]
    constructor
    · intro h; rw [h]
    · intro h; injection h with h; rw [h]
  | null => simp [Json.beq]
  | bool b => simp [Json.beq]
  | num n => simp [Json.beq]
  | arr as => simp [Json.beq]
  | obj fs => simp [Json.beq]

/-! ### Import side: `do_import` (query_tool.py, lines 184-235) -/

/-- `FIELDS_TO_STRIP` (lines 16-23): the server-managed fields removed from a
record before it is submitted for creation. -/
def FIELDS_TO_STRIP : List String :=
  ["archived", "date_fetched", "last_updated", "updated_by", "user_id", "uuid"]

/-- Python `sqs_to_add += content` (line 202, single-file branch): list `+=`
extends with the iterations of `content`.  A JSON array contributes its
elements, a dict contributes its keys, a string contributes its characters
as one-character strings; other JSON values are not iterable (`TypeError`,
modelled as `none`). -/
def iadd (acc : List Json) (content : Json) : Option (List Json) :=
  match content with
  | .arr xs => some (acc ++ xs)
  | .obj fs => some (acc ++ fs.map (fun kv => Json.str kv.1))
  | .str s => some (acc ++ s.data.map (fun c => Json.str (String.mk [c])))
  | _ => none

/-- Candidate accumulation in the single-file branch: `sqs_to_add = []`
followed by `sqs_to_add += content`. -/
def accumulateFile (content : Json) : Option (List Json) :=
  iadd [] content

/-- Candidate accumulation in the directory branch (lines 209-211):
`sqs_to_add.append(content)` for each `.json` file's content, in iteration
order. -/
def accumulateDir (acc : List Json) : List Json → List Json
  | [] => acc
  | c :: cs => accumulateDir (acc ++ [c]) cs

/-- One observable step of the import loop (lines 219-235): the warning-level
skip message for an already-existing name, or the creation submission of a
stripped record together with the name printed in its status line. -/
inductive ImportEvent where
  | skipped (name : Json)
  | created (name : Json) (record : Json)
  deriving Repr

/-- Whether an import event is the warning-level skip. -/
def ImportEvent.isSkip : ImportEvent → Bool
  | .skipped _ => true
  | .created _ _ => false

/-- Names of the records an event list submitted for creation. -/
def createdNames : List ImportEvent → List Json
  | [] => []
  | .created nm _ :: evs => nm :: createdNames evs
  | .skipped _ :: evs => createdNames evs

/-- `[sq_to_add.pop(x, None) for x in FIELDS_TO_STRIP]` (line 231): drop the
server-managed fields from the record's field list. -/
def stripObj (fs : List (String × Json)) : List (String × Json) :=
  fs.filter (fun kv => !(FIELDS_TO_STRIP.contains kv.1))

/-- The import loop over the accumulated candidates (lines 219-235), given
the existing-name list fetched once beforehand (lines 216-217).  Produces one
event per candidate, in order.  `none` models an uncaught exception:
`sq_to_add["name"]` is a `TypeError` on a non-dict candidate and a `KeyError`
when the `"name"` key is absent. -/
def processCandidates (existing : List Json) : List Json → Option (List ImportEvent)
  | [] => some []
  | sq :: rest =>
    match sq with
    | .obj fs =>
      match fs.lookup "name" with
      | none => none
      | some nm =>
        if existing.contains nm then
          (processCandidates existing rest).map (fun evs => .skipped nm :: evs)
        else
          (processCandidates existing rest).map
            (fun evs => .created nm (Json.obj (stripObj fs)) :: evs)
    | _ => none

/-! ### Export side: `do_export` (query_tool.py, lines 238-296) -/

/-- `known = [x["name"] for x in sqs]` then `"\n".join(known)` (lines
250-251), both evaluated before the prefix filter: every record must be a
dict with a `"name"` key (`TypeError`/`KeyError` otherwise) and every name a
string (`join` raises otherwise). -/
def namesOf (sqs : List Json) : Option (List String) :=
  sqs.mapM (fun sq =>
    match sq with
    | .obj fs =>
      match fs.lookup "name" with
      | some (.str s) => some s
      | _ => none
    | _ => none)

/-- `sq["name"].startswith(name_prefix)` (line 252): case-sensitive exact
character-prefix match, expressed on the character lists. -/
def nameStartsWith (pfx : String) (sq : Json) : Option Bool :=
  match sq with
  | .obj fs =>
    match fs.lookup "name" with
    | some (.str s) => some (pfx.data.isPrefixOf s.data)
    | _ => none
  | _ => none

/-- A Python list-comprehension filter whose predicate may raise; the
predicate is evaluated left to right and the first exception escapes. -/
def filterOpt {α : Type} (p : α → Option Bool) : List α → Option (List α)
  | [] => some []
  | x :: xs => do
    let b ← p x
    let rest ← filterOpt p xs
    pure (if b then x :: rest else rest)

/-- Substring test, Python `sub in s` on strings. -/
def strContains (s sub : String) : Bool :=
  (List.range (s.data.length + 1)).any (fun i => sub.data.isPrefixOf (s.data.drop i))

/-- Python `tag in v` (line 267): element membership in a list, substring
test in a string, key membership in a dict; `TypeError` otherwise. -/
def pyIn (t : Json) (v : Json) : Option Bool :=
  match v with
  | .arr xs => some (xs.contains t)
  | .obj fs => some (fs.any (fun kv => Json.beq t (Json.str kv.1)))
  | .str s =>
    match t with
    | .str ts => some (strContains s ts)
    | _ => none
  | _ => none

/-- `sq.get("tags", [])` (lines 265 and 267): needs a dict (`AttributeError`
otherwise); a missing key defaults to the empty list. -/
def getTags (sq : Json) : Option Json :=
  match sq with
  | .obj fs => some ((fs.lookup "tags").getD (Json.arr []))
  | _ => none

/-- `any([tag in sq.get("tags", []) for tag in tags])` (line 267); the
comprehension evaluates every membership test, then `any`. -/
def tagMatch (tags : List String) (sq : Json) : Option Bool := do
  let tv ← getTags sq
  let bs ← tags.mapM (fun tag => pyIn (Json.str tag) tv)
  pure (bs.any id)

/-- `known = []`, `known += sq.get("tags", [])` per record, then
`"\n".join(list(set(known)))` (lines 263-266), all evaluated before the tag
filter.  Collects each record's tag values in order; the `set`/`join` step
requires every collected element to be a string, so any non-string element
makes the diagnostic computation raise (`none`; the model folds all failure
points of lines 263-266 into one `Option`). -/
def collectKnownTags : List Json → Option (List String)
  | [] => some []
  | sq :: rest => do
    let tv ← getTags sq
    let elems ←
      match tv with
      | .arr xs => xs.mapM (fun x =>
          match x with
          | Json.str s => some s
          | _ => none)
      | .str s => some (s.data.map (fun c => String.mk [c]))
      | .obj fs => some (fs.map (·.1))
      | _ => none
    let restT ← collectKnownTags rest
    pure (elems ++ restT)

/-- Outcome of the export filter stage.  The two miss constructors carry
exactly the data of the diagnostic the tool prints before `sys.exit(1)`: the
filter that matched nothing and the known names (in fetch order) or known
tags (in collection order; the printed form passes through Python `set`,
whose iteration order is unspecified, so only the content is modelled). -/
inductive ExportOutcome where
  | nameMiss (pfx : String) (knownNames : List String)
  | tagMiss (tags : List String) (knownTags : List String)
  | ok (sqs : List Json)
  deriving Repr

/-- Process exit code of the filter stage: both miss branches reach
`sys.exit(1)`; otherwise the export proceeds normally. -/
def ExportOutcome.exitCode : ExportOutcome → Nat
  | .nameMiss _ _ => 1
  | .tagMiss _ _ => 1
  | .ok _ => 0

/-- The tag-filter stage of `do_export` (lines 262-275), applied to whatever
records survived the name-prefix stage. -/
def exportTagStage (tags : List String) (sqs : List Json) : Option ExportOutcome := do
  if tags.isEmpty then
    pure (ExportOutcome.ok sqs)
  else
    let known ← collectKnownTags sqs
    let sqs2 ← filterOpt (tagMatch tags) sqs
    if sqs2.isEmpty then
      pure (ExportOutcome.tagMiss tags known)
    else
      pure (ExportOutcome.ok sqs2)

/-- The filter stage of `do_export` (lines 249-275): `if name_prefix:`
applies the client-side prefix filter first (its miss diagnostic lists all
fetched names), then `if tags:` applies the tag filter to the survivors. -/
def exportFilter (pfx : String) (tags : List String) (sqs : List Json) :
    Option ExportOutcome := do
  if pfx.isEmpty then
    exportTagStage tags sqs
  else
    let known ← namesOf sqs
    let sqs1 ← filterOpt (nameStartsWith pfx) sqs
    if sqs1.isEmpty then
      pure (ExportOutcome.nameMiss pfx known)
    else
      exportTagStage tags sqs1

/-- Single-file export (lines 279-285): the data written to
`<path>/<export_prefix>.json` is the JSON array of the filtered records. -/
def singleFileExportData (sqs : List Json) : Json :=
  Json.arr sqs

/-- Python `str.isalnum` on one character.  Exact on ASCII; beyond ASCII the
Unicode property is modelled where needed (U+00E9, a lowercase letter of
category Ll, is alphanumeric); other characters are outside the modelled
domain. -/
def pyIsAlnum (c : Char) : Option Bool :=
  if c.toNat < 128 then some c.isAlphanum
  else if c = 'é' then some true
  else none

/-- `x.isalnum() or x in [" ", "-"]` (line 289). -/
def keepChar (c : Char) : Option Bool := do
  let a ← pyIsAlnum c
  pure (a || c == ' ' || c == '-')

/-- `"".join([x for x in name if x.isalnum() or x in [" ", "-"]])`: the kept
characters of the record name, in order. -/
def safeChars : List Char → Option (List Char)
  | [] => some []
  | c :: cs => do
    let k ← keepChar c
    let rest ← safeChars cs
    pure (if k then c :: rest else rest)

/-- The filesystem-safe filename stem derived from a record name
(line 289). -/
def safe_name (name : String) : Option String :=
  (safeChars name.data).map (fun cs => String.mk cs)

/-- The allowed character set `[A-Za-z0-9 -]` named by the filename-safety
property of the spec (spec wording, for comparison with the Unicode-aware
`str.isalnum` of the code; `Char.isAlphanum` is exactly ASCII `[A-Za-z0-9]`). -/
def claimAllowedChar (c : Char) : Bool :=
  c.isAlphanum || c == ' ' || c == '-'

/-- The primary per-file destination `<path>/<export_prefix>/<safe_name>.json`
(lines 290-291). -/
def primaryDest (path xpfx sname : String) : String :=
  path ++ "/" ++ xpfx ++ "/" ++ sname ++ ".json"

/-- The alternate destination `<safe_name>_<rand>.json` chosen on collision
(line 294). -/
def altDest (path xpfx sname : String) (rand : Nat) : String :=
  path ++ "/" ++ xpfx ++ "/" ++ sname ++ "_" ++ toString rand ++ ".json"

/-- Destination choice of the per-file export (lines 290-294): the primary
path or, when a file already exists there, the alternate path with
`rand = random.randint(0, 999999)` drawn once.  `isFile` is the filesystem
state at the `is_file()` check; the alternate path is not itself checked, and
`path_write` then writes to the returned path unconditionally (per the spec,
`path_write` in single-file mode overwrites an existing file of that name). -/
def perFileDest (isFile : String → Bool) (path xpfx sname : String) (rand : Nat) :
    String :=
  if isFile (primaryDest path xpfx sname) then altDest path xpfx sname rand
  else primaryDest path xpfx sname

/-! ### Supporting lemmas -/

mutual

/-- `Json.beq` is reflexive. -/
theorem Json.beq_rfl : ∀ a : Json, Json.beq a a = true
  | .null => rfl
  | .bool b => beq_self_eq_true b
  | .num n => beq_self_eq_true n
  | .str s => beq_self_eq_true s
  | .arr as => Json.beqList_rfl as
  | .obj fs => Json.beqObj_rfl fs

/-- `Json.beqList` is reflexive. -/
theorem Json.beqList_rfl : ∀ as : List Json, Json.beqList as as = true
  | [] => rfl
  | a :: as => by
    show (Json.beq a a && Json.beqList as as) = true
    rw [Json.beq_rfl a, Json.beqList_rfl as]; rfl

/-- `Json.beqObj` is reflexive. -/
theorem Json.beqObj_rfl : ∀ fs : List (String × Json), Json.beqObj fs fs = true
  | [] => rfl
  | (k, v) :: fs => by
    show (k == k && Json.beq v v && Json.beqObj fs fs) = true
    rw [beq_self_eq_true k, Json.beq_rfl v, Json.beqObj_rfl fs]; rfl

end

/-- A member of a JSON list is found by the Python `in` membership test. -/
theorem Json.contains_of_mem {l : List Json} {nm : Json} (h : nm ∈ l) :
    l.contains nm = true := by
  induction l with
  | nil => cases h
  | cons x xs ih =>
    rw [List.contains_cons]
    rcases List.mem_cons.mp h with h1 | h2
    · subst h1
      rw [Json.beq_def, Json.beq_rfl]; rfl
    · simp [ih h2]

/-- For a string probe, the Python `in` membership test coincides with list
membership. -/
theorem contains_str_iff (l : List Json) (s : String) :
    l.contains (Json.str s) = true ↔ Json.str s ∈ l := by
  induction l with
  | nil => simp
  | cons x xs ih =>
    rw [List.contains_cons, Bool.or_eq_true, ih]
    rw [Json.beq_def, Json.beq_str_iff]
    rw [List.mem_cons]
    exact or_congr eq_comm Iff.rfl

/-- Membership in an appended list, from membership in either part. -/
theorem contains_append_or (l1 l2 : List Json) (nm : Json)
    (h : l1.contains nm = true ∨ nm ∈ l2) : (l1 ++ l2).contains nm = true := by
  induction l1 with
  | nil =>
    rcases h with h1 | h2
    · exact absurd h1 (by simp)
    · simpa using Json.contains_of_mem h2
  | cons x xs ih =>
    rw [List.cons_append, List.contains_cons]
    rcases h with h1 | h2
    · rw [List.contains_cons] at h1
      cases hbe : (nm == x) with
      | true => simp [hbe]
      | false =>
        rw [hbe] at h1
        simp only [Bool.false_or] at h1
        simp [ih (Or.inl h1)]
    · simp [ih (Or.inr h2)]

/-- The directory branch appends each file's content; starting from the empty
accumulator it returns the contents in order. -/
theorem accumulateDir_eq_append (acc cs : List Json) :
    accumulateDir acc cs = acc ++ cs := by
  induction cs generalizing acc with
  | nil => simp [accumulateDir]
  | cons c cs ih => simp [accumulateDir, ih]

/-- `stripObj` on a cons, phrased on membership of the key in the strip
list. -/
theorem stripObj_cons (kv : String × Json) (fs : List (String × Json)) :
    stripObj (kv :: fs) =
      if kv.1 ∈ FIELDS_TO_STRIP then stripObj fs else kv :: stripObj fs := by
  by_cases h : kv.1 ∈ FIELDS_TO_STRIP <;> simp [stripObj, List.filter_cons, h]

/-- A server-managed field is absent from a stripped record. -/
theorem stripObj_lookup_stripped (fs : List (String × Json)) (k : String)
    (hk : k ∈ FIELDS_TO_STRIP) : (stripObj fs).lookup k = none := by
  induction fs with
  | nil => rfl
  | cons kv fs ih =>
    obtain ⟨k', v⟩ := kv
    rw [stripObj_cons]
    by_cases h : k' ∈ FIELDS_TO_STRIP
    · rwa [if_pos h]
    · rw [if_neg h]
      have hne : (k == k') = false := by
        rw [Bool.eq_false_iff]
        intro hbe
        exact h (eq_of_beq hbe ▸ hk)
      simpa [List.lookup, hne] using ih

/-- A field the tool does not strip is looked up unchanged in the stripped
record. -/
theorem stripObj_lookup_preserved (fs : List (String × Json)) (k : String)
    (hk : k ∉ FIELDS_TO_STRIP) : (stripObj fs).lookup k = fs.lookup k := by
  induction fs with
  | nil => rfl
  | cons kv fs ih =>
    obtain ⟨k', v⟩ := kv
    rw [stripObj_cons]
    by_cases h : k' ∈ FIELDS_TO_STRIP
    · have hne : (k == k') = false := by
        rw [Bool.eq_false_iff]
        intro hbe
        exact hk (eq_of_beq hbe ▸ h)
      rw [if_pos h, ih]
      simp [List.lookup, hne]
    · rw [if_neg h]
      cases hbe : (k == k') <;> simp [List.lookup, hbe, ih]

/-- `mapM` over `Option` of a pointwise-`some` function is a `map`. -/
theorem mapM_option_map {α β : Type} (f : α → Option β) (g : α → β) (l : List α)
    (h : ∀ a ∈ l, f a = some (g a)) : l.mapM f = some (l.map g) := by
  induction l with
  | nil => rfl
  | cons x xs ih =>
    rw [List.mapM_cons, h x (List.mem_cons_self x xs),
      ih (fun a ha => h a (List.mem_cons_of_mem x ha))]
    rfl

/-- An all-skip event list submitted nothing for creation. -/
theorem createdNames_eq_nil_of_all_skip (evs : List ImportEvent)
    (h : evs.all ImportEvent.isSkip = true) : createdNames evs = [] := by
  induction evs with
  | nil => rfl
  | cons e evs ih =>
    rw [List.all_cons, Bool.and_eq_true] at h
    cases e with
    | skipped nm => exact ih h.2
    | created nm r => exact absurd h.1 (by simp [ImportEvent.isSkip])

/-- If one run of the import loop succeeded, a re-run against any
existing-name list that covers the old existing names and the names just
created terminates normally and skips every candidate. -/
theorem processCandidates_superset_skips (cands : List Json) (E E2 : List Json)
    (evs : List ImportEvent)
    (hrun : processCandidates E cands = some evs)
    (hcov : ∀ nm : Json, E.contains nm = true ∨ nm ∈ createdNames evs →
      E2.contains nm = true) :
    ∃ evs2, processCandidates E2 cands = some evs2 ∧
      evs2.all ImportEvent.isSkip = true ∧ evs2.length = cands.length := by
  induction cands generalizing evs with
  | nil => exact ⟨[], rfl, rfl, rfl⟩
  | cons sq rest ih =>
    cases sq with
    | obj fs =>
      cases hnm : fs.lookup "name" with
      | none =>
        simp only [processCandidates, hnm] at hrun
        exact absurd hrun (by simp)
      | some nm =>
        cases hc : E.contains nm with
        | true =>
          simp only [processCandidates, hnm, hc, if_true] at hrun
          obtain ⟨evs', hrun', hfev⟩ := Option.map_eq_some'.mp hrun
          subst hfev
          have hc2 : E2.contains nm = true := hcov nm (Or.inl hc)
          obtain ⟨evs2, h2, hall, hlen⟩ := ih evs' hrun'
            (fun x hx => hcov x (by simpa [createdNames] using hx))
          refine ⟨.skipped nm :: evs2, ?_, ?_, ?_⟩
          · simp only [processCandidates, hnm, hc2, if_true, h2, Option.map_some']
          · simp [List.all_cons, hall, ImportEvent.isSkip]
          · simp [hlen]
        | false =>
          simp only [processCandidates, hnm, hc, if_false] at hrun
          obtain ⟨evs', hrun', hfev⟩ := Option.map_eq_some'.mp hrun
          subst hfev
          have hc2 : E2.contains nm = true :=
            hcov nm (Or.inr (by simp [createdNames]))
          obtain ⟨evs2, h2, hall, hlen⟩ := ih evs' hrun'
            (fun x hx => hcov x (by
              rcases hx with h1 | h2
              · exact Or.inl h1
              · exact Or.inr (by simp [createdNames, h2])))
          refine ⟨.skipped nm :: evs2, ?_, ?_, ?_⟩
          · simp only [processCandidates, hnm, hc2, if_true, h2, Option.map_some']
          · simp [List.all_cons, hall, ImportEvent.isSkip]
          · simp [hlen]
    | null => exact absurd hrun (by simp [processCandidates])
    | bool b => exact absurd hrun (by simp [processCandidates])
    | num n => exact absurd hrun (by simp [processCandidates])
    | str s => exact absurd hrun (by simp [processCandidates])
    | arr xs => exact absurd hrun (by simp [processCandidates])

/-! ### C1: import accumulation across source file shapes -/

/-- C1 counterexample: for a single `.json` file whose content is one record
object, the import accumulation does not yield that record as the one
candidate; Python list `+=` over a dict extends with its keys, so the
candidate sequence holds the string `"name"` instead of the record. -/
theorem import_file_object_yields_keys_cex :
    accumulateFile (Json.obj [("name", Json.str "a")]) = some [Json.str "name"] ∧
    accumulateFile (Json.obj [("name", Json.str "a")]) ≠
      some [Json.obj [("name", Json.str "a")]] := by
  refine ⟨rfl, fun h => ?_⟩
  rw [show accumulateFile (Json.obj [("name", Json.str "a")]) =
    some [Json.str "name"] from rfl] at h
  simp at h

/-- C1 (amended): the two import branches accept complementary shapes.  The
single-file branch flattens a JSON array of records into the candidate
sequence (round-tripping single-file exports) but turns an object into its
key strings; the directory branch appends each file's content as exactly one
candidate (round-tripping per-file exports), so an array-shaped file there
becomes a single list-valued candidate, not several records. -/
theorem import_accumulation_shapes (S : List Json) (contents : List Json)
    (fs : List (String × Json)) :
    accumulateFile (Json.arr S) = some S ∧
    accumulateDir [] contents = contents ∧
    accumulateFile (Json.obj fs) = some (fs.map (fun kv => Json.str kv.1)) := by
  refine ⟨rfl, ?_, rfl⟩
  rw [accumulateDir_eq_append]
  exact List.nil_append contents

/-! ### C2: single-file export/import round trip -/

/-- C2: exporting a record sequence in single-file mode produces a JSON array
that the import file branch flattens back into the same candidate sequence;
against an empty existing-name set the loop submits exactly one creation per
record, in order, with the record's name and with the server-managed fields
stripped: the submitted record keeps the name unchanged and holds none of the
six server-managed fields. -/
theorem single_file_round_trip (S : List (List (String × Json)))
    (h : ∀ fs ∈ S, (fs.lookup "name").isSome = true) :
    accumulateFile (singleFileExportData (S.map Json.obj)) = some (S.map Json.obj) ∧
    processCandidates [] (S.map Json.obj) =
      some (S.map (fun fs =>
        ImportEvent.created ((fs.lookup "name").getD Json.null)
          (Json.obj (stripObj fs)))) ∧
    (∀ fs ∈ S, (stripObj fs).lookup "name" = fs.lookup "name") ∧
    (∀ fs ∈ S, ∀ k ∈ FIELDS_TO_STRIP, (stripObj fs).lookup k = none) := by
  refine ⟨rfl, ?_, ?_, ?_⟩
  · induction S with
    | nil => rfl
    | cons fs S ih =>
      obtain ⟨nm, hnm⟩ :=
        Option.isSome_iff_exists.mp (h fs (List.mem_cons_self fs S))
      have ih' := ih (fun g hg => h g (List.mem_cons_of_mem fs hg))
      simp only [List.map_cons, processCandidates, hnm]
      rw [show (([] : List Json).contains nm) = false from rfl]
      simp only [Bool.false_eq_true, if_false, ih', Option.map_some', hnm,
        Option.getD_some]
  · exact fun fs _ => stripObj_lookup_preserved fs "name" (by decide)
  · exact fun fs _ => fun k hk => stripObj_lookup_stripped fs k hk

/-- C2 witness at a one-record sequence carrying a server-managed field. -/
theorem single_file_round_trip_witness :
    processCandidates []
        ([[("name", Json.str "q"), ("uuid", Json.str "u")]].map Json.obj) =
      some ([[("name", Json.str "q"), ("uuid", Json.str "u")]].map (fun fs =>
        ImportEvent.created ((fs.lookup "name").getD Json.null)
          (Json.obj (stripObj fs)))) :=
  (single_file_round_trip [[("name", Json.str "q"), ("uuid", Json.str "u")]]
    (by intro fs hfs; rw [List.mem_singleton] at hfs; subst hfs; rfl)).2.1

/-! ### C3: re-import of existing names skips everything -/

/-- C3: when every candidate's name is already in the existing-name set, the
loop of the import terminates normally with one warning-level skip event per
candidate and zero creation submissions; and after any successful run, a
re-run of the same candidates against the remote state extended by the names
just created again terminates normally, all skipped, creating nothing. -/
theorem import_existing_names_all_skipped (existing cands : List Json) :
    ((∀ sq ∈ cands, ∃ fs nm, sq = Json.obj fs ∧
        fs.lookup "name" = some nm ∧ nm ∈ existing) →
      ∃ evs, processCandidates existing cands = some evs ∧
        evs.all ImportEvent.isSkip = true ∧ evs.length = cands.length ∧
        createdNames evs = []) ∧
    (∀ evs, processCandidates existing cands = some evs →
      ∃ evs2, processCandidates (existing ++ createdNames evs) cands = some evs2 ∧
        evs2.all ImportEvent.isSkip = true ∧ evs2.length = cands.length ∧
        createdNames evs2 = []) := by
  constructor
  · intro hall
    have main : ∃ evs, processCandidates existing cands = some evs ∧
        evs.all ImportEvent.isSkip = true ∧ evs.length = cands.length := by
      induction cands with
      | nil => exact ⟨[], rfl, rfl, rfl⟩
      | cons sq rest ih =>
        obtain ⟨fs, nm, hsq, hnm, hmem⟩ := hall sq (List.mem_cons_self sq rest)
        subst hsq
        have hc : existing.contains nm = true := Json.contains_of_mem hmem
        obtain ⟨evs, h1, h2, h3⟩ :=
          ih (fun x hx => hall x (List.mem_cons_of_mem _ hx))
        refine ⟨.skipped nm :: evs, ?_, ?_, ?_⟩
        · simp only [processCandidates, hnm, hc, if_true, h1, Option.map_some']
        · simp [List.all_cons, h2, ImportEvent.isSkip]
        · simp [h3]
    obtain ⟨evs, h1, h2, h3⟩ := main
    exact ⟨evs, h1, h2, h3, createdNames_eq_nil_of_all_skip evs h2⟩
  · intro evs hrun
    obtain ⟨evs2, h1, h2, h3⟩ :=
      processCandidates_superset_skips cands existing
        (existing ++ createdNames evs) evs hrun
        (fun nm h => contains_append_or existing (createdNames evs) nm h)
    exact ⟨evs2, h1, h2, h3, createdNames_eq_nil_of_all_skip evs2 h2⟩

/-- C3 witness: one candidate whose name pre-exists is skipped, and the
re-run clause applies to a run that created one record. -/
theorem import_existing_names_all_skipped_witness :
    (∃ evs, processCandidates [Json.str "q"] [Json.obj [("name", Json.str "q")]] =
        some evs ∧ evs.all ImportEvent.isSkip = true ∧
        evs.length = [Json.obj [("name", Json.str "q")]].length ∧
        createdNames evs = []) ∧
    (∃ evs2, processCandidates
        ([] ++ createdNames [ImportEvent.created (Json.str "q")
          (Json.obj [("name", Json.str "q")])])
        [Json.obj [("name", Json.str "q")]] = some evs2 ∧
      evs2.all ImportEvent.isSkip = true ∧
      evs2.length = [Json.obj [("name", Json.str "q")]].length ∧
      createdNames evs2 = []) := by
  constructor
  · exact (import_existing_names_all_skipped [Json.str "q"]
      [Json.obj [("name", Json.str "q")]]).1
      (by
        intro sq hsq
        rw [List.mem_singleton] at hsq
        exact ⟨[("name", Json.str "q")], Json.str "q", hsq, rfl, by simp⟩)
  · exact (import_existing_names_all_skipped []
      [Json.obj [("name", Json.str "q")]]).2
      [ImportEvent.created (Json.str "q") (Json.obj [("name", Json.str "q")])] rfl

/-! ### C6: creation submits the stripped record -/

/-- C6: a candidate whose name is not among the existing names is submitted
for creation as the record with the six server-managed fields removed: the
submitted record contains none of `FIELDS_TO_STRIP`, every other key is
looked up unchanged, and every non-stripped key-value pair of the candidate
is still present. -/
theorem import_created_record_fields (existing : List Json)
    (fs : List (String × Json)) (rest : List Json) (nm : String)
    (hnm : fs.lookup "name" = some (Json.str nm))
    (hnew : Json.str nm ∉ existing) :
    processCandidates existing (Json.obj fs :: rest) =
      (processCandidates existing rest).map
        (fun evs => ImportEvent.created (Json.str nm)
          (Json.obj (stripObj fs)) :: evs) ∧
    (∀ k ∈ FIELDS_TO_STRIP, (stripObj fs).lookup k = none) ∧
    (∀ k : String, k ∉ FIELDS_TO_STRIP → (stripObj fs).lookup k = fs.lookup k) ∧
    (∀ kv ∈ fs, kv.1 ∉ FIELDS_TO_STRIP → kv ∈ stripObj fs) := by
  have hc : existing.contains (Json.str nm) = false := by
    rw [Bool.eq_false_iff]
    intro h
    exact hnew ((contains_str_iff existing nm).mp h)
  refine ⟨?_, ?_, ?_, ?_⟩
  · simp only [processCandidates, hnm, hc, Bool.false_eq_true, if_false]
  · exact fun k hk => stripObj_lookup_stripped fs k hk
  · exact fun k hk => stripObj_lookup_preserved fs k hk
  · intro kv hkv hns
    exact List.mem_filter.mpr ⟨hkv, by simp [hns]⟩

/-- C6 witness: a fresh record with one server-managed field. -/
theorem import_created_record_fields_witness :
    processCandidates [] [Json.obj [("name", Json.str "q"), ("uuid", Json.str "u")]] =
      (processCandidates [] ([] : List Json)).map
        (fun evs => ImportEvent.created (Json.str "q")
          (Json.obj (stripObj [("name", Json.str "q"), ("uuid", Json.str "u")])) :: evs) :=
  (import_created_record_fields [] [("name", Json.str "q"), ("uuid", Json.str "u")]
    [] "q" rfl (by simp)).1

/-! ### C10: candidates must be mappings with a name -/

/-- C10: the import loop is total over candidate sequences in which every
candidate is a JSON object with a `"name"` key; a candidate object lacking
`"name"` aborts the loop at that record (a `KeyError` before any
skip-or-create decision), and a non-object candidate aborts likewise (a
`TypeError` at the name lookup). -/
theorem import_candidates_need_name (existing cands : List Json) :
    ((∀ sq ∈ cands, ∃ fs, sq = Json.obj fs ∧ (fs.lookup "name").isSome = true) →
      (processCandidates existing cands).isSome = true) ∧
    (∀ fs rest, (fs : List (String × Json)).lookup "name" = none →
      processCandidates existing (Json.obj fs :: rest) = none) ∧
    (∀ sq rest, (∀ fs : List (String × Json), sq ≠ Json.obj fs) →
      processCandidates existing (sq :: rest) = none) := by
  refine ⟨?_, ?_, ?_⟩
  · intro hall
    induction cands with
    | nil => rfl
    | cons sq rest ih =>
      obtain ⟨fs, hsq, hnm⟩ := hall sq (List.mem_cons_self sq rest)
      subst hsq
      obtain ⟨nm, hnm'⟩ := Option.isSome_iff_exists.mp hnm
      have ih' := ih (fun x hx => hall x (List.mem_cons_of_mem _ hx))
      cases hc : existing.contains nm with
      | true =>
        simp only [processCandidates, hnm', hc, if_true]
        simpa using ih'
      | false =>
        simp only [processCandidates, hnm', hc, Bool.false_eq_true, if_false]
        simpa using ih'
  · intro fs rest hnone
    simp only [processCandidates, hnone]
  · intro sq rest hne
    cases sq with
    | obj fs => exact absurd rfl (hne fs)
    | null => rfl
    | bool b => rfl
    | num n => rfl
    | str s => rfl
    | arr xs => rfl

/-- C10 witness: a well-formed candidate list is processed, and a nameless
object or a bare string candidate aborts the run. -/
theorem import_candidates_need_name_witness :
    (processCandidates [] [Json.obj [("name", Json.str "q")]]).isSome = true ∧
    processCandidates [] [Json.obj [("tags", Json.arr [])]] = none ∧
    processCandidates [] [Json.str "name"] = none := by
  refine ⟨?_, ?_, ?_⟩
  · exact (import_candidates_need_name [] [Json.obj [("name", Json.str "q")]]).1
      (by
        intro sq hsq
        rw [List.mem_singleton] at hsq
        exact ⟨[("name", Json.str "q")], hsq, rfl⟩)
  · exact (import_candidates_need_name [] []).2.1 [("tags", Json.arr [])] [] rfl
  · exact (import_candidates_need_name [] []).2.2 (Json.str "name") []
      (fun fs h => Json.noConfusion h)

/-- `any` of an identity test over a mapped list is `any` of the map
function. -/
theorem any_id_map {α : Type} (g : α → Bool) (l : List α) :
    (l.map g).any id = l.any g := by
  induction l with
  | nil => rfl
  | cons x xs ih => simp [List.any_cons, ih]

/-! ### C7: tag filter semantics -/

/-- C7: for a non-empty requested tag list, the tag-filter predicate keeps a
record exactly when the array in the record `tags` field intersects the
requested tag set; a record without a `tags` field defaults to the empty
list and is dropped. -/
theorem tag_filter_intersection (tags : List String) (fs : List (String × Json))
    (_htags : tags ≠ []) :
    (∀ txs, fs.lookup "tags" = some (Json.arr txs) →
      (tagMatch tags (Json.obj fs) = some true ↔
        ∃ t ∈ tags, Json.str t ∈ txs)) ∧
    (fs.lookup "tags" = none → tagMatch tags (Json.obj fs) = some false) := by
  constructor
  · intro txs htv
    have hg : getTags (Json.obj fs) = some (Json.arr txs) := by
      simp [getTags, htv]
    have h2 : tags.mapM (fun tag => pyIn (Json.str tag) (Json.arr txs)) =
        some (tags.map (fun t => txs.contains (Json.str t))) :=
      mapM_option_map _ _ _ (fun t _ => rfl)
    have h3 : tagMatch tags (Json.obj fs) =
        some ((tags.map (fun t => txs.contains (Json.str t))).any id) := by
      unfold tagMatch
      rw [hg]
      show (tags.mapM fun tag => pyIn (Json.str tag) (Json.arr txs)).bind
        (fun bs => some (bs.any id)) = _
      rw [h2]
      rfl
    rw [h3, any_id_map]
    simp only [Option.some.injEq]
    rw [List.any_eq_true]
    refine exists_congr (fun t => and_congr_right (fun _ => ?_))
    exact contains_str_iff txs t
  · intro hnone
    have hg : getTags (Json.obj fs) = some (Json.arr []) := by
      simp [getTags, hnone]
    have h2 : tags.mapM (fun tag => pyIn (Json.str tag) (Json.arr [])) =
        some (tags.map (fun _ => false)) :=
      mapM_option_map _ _ _ (fun t _ => rfl)
    have h3 : tagMatch tags (Json.obj fs) =
        some ((tags.map (fun _ : String => false)).any id) := by
      unfold tagMatch
      rw [hg]
      show (tags.mapM fun tag => pyIn (Json.str tag) (Json.arr [])).bind
        (fun bs => some (bs.any id)) = _
      rw [h2]
      rfl
    rw [h3, any_id_map]
    simp only [Option.some.injEq]
    rw [Bool.eq_false_iff]
    intro h
    obtain ⟨x, _, hpx⟩ := List.any_eq_true.mp h
    exact absurd hpx (by simp)

/-- C7 witness at the scenario tags of the spec: a record tagged `prod`
matches, a record without tags is dropped. -/
theorem tag_filter_intersection_witness :
    (tagMatch ["prod", "eu"] (Json.obj [("name", Json.str "q1"),
        ("tags", Json.arr [Json.str "prod"])]) = some true ↔
      ∃ t ∈ ["prod", "eu"], Json.str t ∈ [Json.str "prod"]) ∧
    tagMatch ["prod", "eu"] (Json.obj [("name", Json.str "q3")]) = some false := by
  constructor
  · exact (tag_filter_intersection ["prod", "eu"]
      [("name", Json.str "q1"), ("tags", Json.arr [Json.str "prod"])]
      (by decide)).1 [Json.str "prod"] rfl
  · exact (tag_filter_intersection ["prod", "eu"] [("name", Json.str "q3")]
      (by decide)).2 rfl

/-! ### C8: filter-miss diagnostics and exit status -/

/-- C8: whenever a requested name-prefix or tag filter matches nothing, the
filter stage ends in the corresponding miss outcome, carrying the filter that
matched nothing together with the known names (prefix miss, over all fetched
records) or the known tags (tag miss, over the records entering the tag
stage), and the process exit code is 1. -/
theorem export_filter_miss_diagnostics (pfx : String) (tags : List String)
    (sqs : List Json) :
    (pfx ≠ "" → ∀ ns, namesOf sqs = some ns →
      filterOpt (nameStartsWith pfx) sqs = some [] →
      exportFilter pfx tags sqs = some (ExportOutcome.nameMiss pfx ns) ∧
        (ExportOutcome.nameMiss pfx ns).exitCode = 1) ∧
    (tags ≠ [] → ∀ kt, collectKnownTags sqs = some kt →
      filterOpt (tagMatch tags) sqs = some [] →
      exportFilter "" tags sqs = some (ExportOutcome.tagMiss tags kt) ∧
        (ExportOutcome.tagMiss tags kt).exitCode = 1) ∧
    (pfx ≠ "" → tags ≠ [] → ∀ ns s1 kt, namesOf sqs = some ns →
      filterOpt (nameStartsWith pfx) sqs = some s1 → s1 ≠ [] →
      collectKnownTags s1 = some kt → filterOpt (tagMatch tags) s1 = some [] →
      exportFilter pfx tags sqs = some (ExportOutcome.tagMiss tags kt) ∧
        (ExportOutcome.tagMiss tags kt).exitCode = 1) := by
  refine ⟨?_, ?_, ?_⟩
  · intro hpfx ns hns hflt
    have hpe : pfx.isEmpty = false := by
      rw [Bool.eq_false_iff]
      intro h
      exact hpfx ((String.isEmpty_iff pfx).mp h)
    refine ⟨?_, rfl⟩
    simp [exportFilter, hpe, hns, hflt]
  · intro htags kt hkt hflt
    have hte : tags.isEmpty = false := by
      cases tags with
      | nil => exact absurd rfl htags
      | cons a l => rfl
    refine ⟨?_, rfl⟩
    simp [exportFilter, exportTagStage, hte, hkt, hflt,
      show ("" : String).isEmpty = true from rfl]
  · intro hpfx htags ns s1 kt hns h1 hne hkt hflt
    have hpe : pfx.isEmpty = false := by
      rw [Bool.eq_false_iff]
      intro h
      exact hpfx ((String.isEmpty_iff pfx).mp h)
    have hs1 : s1.isEmpty = false := by
      cases s1 with
      | nil => exact absurd rfl hne
      | cons a l => rfl
    have hte : tags.isEmpty = false := by
      cases tags with
      | nil => exact absurd rfl htags
      | cons a l => rfl
    refine ⟨?_, rfl⟩
    simp [exportFilter, exportTagStage, hpe, hns, h1, hs1, hte, hkt, hflt]

/-- C8 witness: a prefix miss over one record and a tag miss over one
record, each ending in the diagnostic outcome with exit code 1. -/
theorem export_filter_miss_diagnostics_witness :
    (exportFilter "AX" [] [Json.obj [("name", Json.str "q1")]] =
        some (ExportOutcome.nameMiss "AX" ["q1"]) ∧
      (ExportOutcome.nameMiss "AX" ["q1"]).exitCode = 1) ∧
    (exportFilter "" ["prod"] [Json.obj [("name", Json.str "q1"),
        ("tags", Json.arr [Json.str "dev"])]] =
        some (ExportOutcome.tagMiss ["prod"] ["dev"]) ∧
      (ExportOutcome.tagMiss ["prod"] ["dev"]).exitCode = 1) := by
  constructor
  · exact (export_filter_miss_diagnostics "AX" []
      [Json.obj [("name", Json.str "q1")]]).1 (by decide) ["q1"] rfl rfl
  · exact (export_filter_miss_diagnostics "" ["prod"]
      [Json.obj [("name", Json.str "q1"),
        ("tags", Json.arr [Json.str "dev"])]]).2.1 (by decide) ["dev"] rfl rfl

/-! ### C9: prefix filter first, tag diagnostics from the narrowed set -/

/-- C9: with both a name prefix and a tag list supplied, the prefix filter is
applied first and the tag stage runs on the prefix survivors only; hence on a
tag miss the known-tags diagnostic is collected from the prefix-filtered
subset, not from the full fetched collection. -/
theorem export_tag_stage_after_name_filter (pfx : String) (tags : List String)
    (sqs : List Json) (ns : List String) (s1 : List Json)
    (hpfx : pfx ≠ "") (htags : tags ≠ [])
    (hns : namesOf sqs = some ns)
    (h1 : filterOpt (nameStartsWith pfx) sqs = some s1) (hne : s1 ≠ []) :
    exportFilter pfx tags sqs = exportTagStage tags s1 ∧
    (∀ kt, collectKnownTags s1 = some kt →
      filterOpt (tagMatch tags) s1 = some [] →
      exportFilter pfx tags sqs = some (ExportOutcome.tagMiss tags kt)) := by
  have hpe : pfx.isEmpty = false := by
    rw [Bool.eq_false_iff]
    intro h
    exact hpfx ((String.isEmpty_iff pfx).mp h)
  have hs1 : s1.isEmpty = false := by
    cases s1 with
    | nil => exact absurd rfl hne
    | cons a l => rfl
  have hte : tags.isEmpty = false := by
    cases tags with
    | nil => exact absurd rfl htags
    | cons a l => rfl
  have hmain : exportFilter pfx tags sqs = exportTagStage tags s1 := by
    simp [exportFilter, hpe, hns, h1, hs1]
  refine ⟨hmain, ?_⟩
  intro kt hkt hflt
  rw [hmain]
  simp [exportTagStage, hte, hkt, hflt]

/-- C9 witness: the fetched collection knows the tags `prod` and `dev`, but
after narrowing to names beginning with `B` the tag-miss diagnostic lists
only `dev`, the tags of the surviving record. -/
theorem export_tag_stage_after_name_filter_witness :
    exportFilter "B" ["prod"]
      [Json.obj [("name", Json.str "A1"), ("tags", Json.arr [Json.str "prod"])],
       Json.obj [("name", Json.str "B1"), ("tags", Json.arr [Json.str "dev"])]] =
      some (ExportOutcome.tagMiss ["prod"] ["dev"]) :=
  (export_tag_stage_after_name_filter "B" ["prod"]
    [Json.obj [("name", Json.str "A1"), ("tags", Json.arr [Json.str "prod"])],
     Json.obj [("name", Json.str "B1"), ("tags", Json.arr [Json.str "dev"])]]
    ["A1", "B1"]
    [Json.obj [("name", Json.str "B1"), ("tags", Json.arr [Json.str "dev"])]]
    (by decide) (by decide) rfl rfl (List.cons_ne_nil _ _)).2 ["dev"] rfl rfl

/-! ### C4: per-file collision handling -/

/-- C4 counterexample: when the randomly suffixed alternate path also already
exists (here the draw is 0 and `q_0.json` is an existing file), the write
target returned by the collision check is itself an existing file, which
`path_write` overwrites; the "does not overwrite any existing file" reading
fails. -/
theorem per_file_alternate_collision_cex :
    perFileDest (fun s => s == "/d/p/q.json" || s == "/d/p/q_0.json")
      "/d" "p" "q" 0 = "/d/p/q_0.json" ∧
    (fun s => s == "/d/p/q.json" || s == "/d/p/q_0.json") "/d/p/q_0.json" = true ∧
    (0 : Nat) ≤ 999999 :=
  ⟨rfl, rfl, by decide⟩

/-- C4 (amended): when the primary target exists, the record is written to
the alternate path `<safe_name>_<rand>.json`, which always differs from the
primary path, so the pre-existing file at the primary target is never
overwritten; the alternate path itself is not checked for existence. -/
theorem per_file_primary_not_overwritten (isFile : String → Bool)
    (path xpfx sname : String) (rand : Nat)
    (hex : isFile (primaryDest path xpfx sname) = true) (_hr : rand ≤ 999999) :
    perFileDest isFile path xpfx sname rand = altDest path xpfx sname rand ∧
    altDest path xpfx sname rand ≠ primaryDest path xpfx sname := by
  constructor
  · simp [perFileDest, hex]
  · intro h
    have hl := congrArg String.length h
    simp only [altDest, primaryDest, String.length_append,
      show String.length "/" = 1 by decide, show String.length "_" = 1 by decide,
      show String.length ".json" = 5 by decide] at hl
    omega

/-- C4 witness: a primary collision with draw 7 lands on the distinct
alternate path. -/
theorem per_file_primary_not_overwritten_witness :
    perFileDest (fun s => s == "/d/p/q.json") "/d" "p" "q" 7 =
      altDest "/d" "p" "q" 7 ∧
    altDest "/d" "p" "q" 7 ≠ primaryDest "/d" "p" "q" :=
  per_file_primary_not_overwritten (fun s => s == "/d/p/q.json")
    "/d" "p" "q" 7 rfl (by decide)

/-! ### C5: filename character safety -/

/-- C5 counterexample: Python `str.isalnum` is Unicode-aware, so the name
`"é"` derives the stem `"é"`, whose character lies outside `[A-Za-z0-9 -]`;
the "all other characters dropped" reading fails. -/
theorem safe_name_unicode_kept_cex :
    safe_name "é" = some "é" ∧ 'é' ∈ "é".data ∧ claimAllowedChar 'é' = false :=
  ⟨rfl, by decide, by decide⟩

/-- On ASCII characters the keep test of the code agrees with the allowed
set of the claim. -/
theorem safeChars_ascii (cs : List Char) (h : ∀ c ∈ cs, c.toNat < 128) :
    safeChars cs = some (cs.filter claimAllowedChar) := by
  induction cs with
  | nil => rfl
  | cons c cs ih =>
    have hc : c.toNat < 128 := h c (List.mem_cons_self c cs)
    have ha : pyIsAlnum c = some c.isAlphanum := by
      unfold pyIsAlnum
      rw [if_pos hc]
    have hk : keepChar c = some (claimAllowedChar c) := by
      simp [keepChar, ha, claimAllowedChar]
    have ih' := ih (fun d hd => h d (List.mem_cons_of_mem c hd))
    cases hcc : claimAllowedChar c with
    | true => simp [safeChars, hk, hcc, ih', List.filter_cons]
    | false => simp [safeChars, hk, hcc, ih', List.filter_cons]

/-- C5 (amended): on names made of ASCII characters the derived stem keeps
exactly the characters in `[A-Za-z0-9 -]` (beyond ASCII the code also keeps
Unicode alphanumerics, as the counterexample shows); the result contains only
allowed characters and is non-empty whenever the name contains at least one
allowed character. -/
theorem safe_name_ascii_allowed (name : String)
    (h : ∀ c ∈ name.data, c.toNat < 128) :
    safe_name name = some (String.mk (name.data.filter claimAllowedChar)) ∧
    (∀ c ∈ name.data.filter claimAllowedChar, claimAllowedChar c = true) ∧
    ((∃ c ∈ name.data, claimAllowedChar c = true) →
      String.mk (name.data.filter claimAllowedChar) ≠ "") := by
  refine ⟨?_, ?_, ?_⟩
  · simp [safe_name, safeChars_ascii name.data h]
  · exact fun c hc => (List.mem_filter.mp hc).2
  · rintro ⟨c, hc, hal⟩ hemp
    have hdata : name.data.filter claimAllowedChar = [] := by
      have := congrArg String.data hemp
      simpa using this
    have : c ∈ ([] : List Char) := hdata ▸ List.mem_filter.mpr ⟨hc, hal⟩
    cases this

/-- C5 witness: a name with underscore, dot and bang keeps only `abc`. -/
theorem safe_name_ascii_allowed_witness :
    safe_name "a_b.c!" = some (String.mk ("a_b.c!".data.filter claimAllowedChar)) ∧
    (∀ c ∈ "a_b.c!".data.filter claimAllowedChar, claimAllowedChar c = true) ∧
    ((∃ c ∈ "a_b.c!".data, claimAllowedChar c = true) →
      String.mk ("a_b.c!".data.filter claimAllowedChar) ≠ "") :=
  safe_name_ascii_allowed "a_b.c!" (by decide)

end QueryTool
